import Mathlib

/-!
# Verification of the Epistemic-Me Apps repository

This development formalises, in a shallow embedding, the behaviour of

* the query-routing / observation-context selection component of the
  Bio-Age Coach (the `route`, `handleUpload` and `combineResponses`
  operations of the specification; the semantic-router implementation
  itself is not part of the source tree — only its documentation, tests
  and the superseded rule-based `QueryRouter` are — so the routing
  operations are modelled from the specification's own words and marked
  as such in their doc comments),
* the response-mapping logic of
  `chat-survey-ui/src/services/dialecticService.ts`
  (`mapInteractionValue` and the pure part of
  `updateDialecticWithMessage`), and
* the API-key caching logic of `authService.ts` (`AuthService`).

Scores are modelled as rational numbers, TypeScript/Python `null` /
`undefined` as `Option`, thrown exceptions as `Except`, and the mutable
singleton state of `AuthService` as explicit state passing.
-/

namespace Spec2Proof

/-! ## String utilities

Python's `phrase in query.lower()` and the substring matching used by
the router are modelled on the character lists underlying `String`. -/

/-- Test `leadMatch p l`: true iff `p` is an initial segment of `l`
(character-by-character comparison). -/
def leadMatch : List Char → List Char → Bool
  | [], _ => true
  | _ :: _, [] => false
  | a :: as, b :: bs => a == b && leadMatch as bs

/-- Test `occursIn p l`: true iff `p` occurs contiguously somewhere in `l`
(Python's `p in l` on strings). -/
def occursIn (p : List Char) : List Char → Bool
  | [] => leadMatch p []
  | b :: bs => leadMatch p (b :: bs) || occursIn p bs

/-- The lower-cased character sequence of a string (`query.lower()`;
character-wise, which is what `String.toLower` does). -/
def lowerChars (s : String) : List Char := s.toList.map Char.toLower

/-- A phrase matches a query iff it occurs in the lower-cased query
(spec §4 step 1: "matching a curated keyword/phrase list for that agent
against the lower-cased query"). -/
def phraseMatch (query phrase : String) : Bool :=
  occursIn phrase.toList (lowerChars query)

/-! ## The agent enumeration (spec §4 step 1) -/

/-- The fixed enumerated set of registered agent capabilities, in the
fixed enumeration order of the spec: health-data, exercise, nutrition,
biometric, bio-age-score, research, general. -/
inductive Agent where
  | healthData
  | exercise
  | nutrition
  | biometric
  | bioAgeScore
  | research
  | general
  deriving DecidableEq, Repr

/-- All agents, in the fixed enumeration order. -/
def Agent.all : List Agent :=
  [.healthData, .exercise, .nutrition, .biometric, .bioAgeScore, .research, .general]

/-- Position of an agent in the fixed enumeration order (used for
deterministic tie-breaking, spec §4 step 5). -/
def Agent.idx : Agent → Nat
  | .healthData => 0
  | .exercise => 1
  | .nutrition => 2
  | .biometric => 3
  | .bioAgeScore => 4
  | .research => 5
  | .general => 6

/-- The external name of each agent. -/
def Agent.name : Agent → String
  | .healthData => "health-data"
  | .exercise => "exercise"
  | .nutrition => "nutrition"
  | .biometric => "biometric"
  | .bioAgeScore => "bio-age-score"
  | .research => "research"
  | .general => "general"

/-! ## Data model (spec §3) -/

/-- Modelled from the spec: the enumerated qualitative level of an
observation context (`"poor"/"fair"/"good"/"optimal"`, spec §3). -/
inductive QualLevel where
  | poor
  | fair
  | good
  | optimal
  deriving DecidableEq, Repr

/-- Modelled from the spec: an `ObservationContext` — a named snapshot of
one category of user data (spec §3).  `rawData` is an opaque mapping of
field name to (numeric) value; `insights`/`recommendations`/`questions`
are not consumed by the router and are omitted. -/
structure ObservationContext where
  dataType : String
  rawData : List (String × ℚ)
  currentState : QualLevel
  goalState : QualLevel
  deriving DecidableEq, Repr

/-- Modelled from the spec: a `RoutingDecision` (spec §3): the original
query, one score per enumerated agent, the ordered selection, and the
combination flag. -/
structure RoutingDecision where
  query : String
  scores : List (Agent × ℚ)
  selected : List Agent
  combined : Bool
  deriving DecidableEq, Repr

/-- Modelled from the spec: the per-session `RouterState` (spec §3):
latest context per data type, plus the append-only history of past
routing decisions. -/
structure RouterState where
  contexts : List (String × ObservationContext)
  history : List RoutingDecision
  deriving DecidableEq, Repr

/-- The router state of a fresh session: no uploads, no history. -/
def emptyState : RouterState := ⟨[], []⟩

/-! ## Router configuration

The spec (§9) asks that the bonus magnitudes, the threshold, the
keyword tables and the optional embedding backend be treated as
configurable collaborators rather than protocol-fixed constants, so the
model takes them as a configuration record.  `embed = none` models an
unavailable embedding backend (spec §4 step 3, §7 `EmbeddingUnavailable`). -/
structure RouterConfig where
  phrases : Agent → List String
  embed : Option (String → Agent → ℚ)
  threshold : ℚ
  dataBonus : ℚ
  embedWeight : ℚ
  recencyBonus : ℚ

/-- Modelled from the spec: the data types of the fixed upload
enumeration (spec §3 and the data-type detection table of the Bio Age
Coach documentation: sleep, exercise, nutrition, biometric). -/
def validDataTypes : List String := ["sleep", "exercise", "nutrition", "biometric"]

/-- Modelled from the spec: which uploaded data types "correspond to"
each agent for the data-presence bonus (spec §4 step 2; the spec's §8
scenario maps a `"sleep"` upload to the health-data agent). -/
def Agent.dataTypes : Agent → List String
  | .healthData => ["sleep"]
  | .exercise => ["exercise"]
  | .nutrition => ["nutrition"]
  | .biometric => ["biometric"]
  | .bioAgeScore => []
  | .research => []
  | .general => []

/-- Default phrase tables for the concrete witnesses; the curated lists
are drawn from the routing patterns and test prompts in the source
tree's documentation. -/
def defaultPhrases : Agent → List String
  | .healthData => ["sleep", "health data", "steps", "apple health"]
  | .exercise => ["exercise", "workout", "active calories"]
  | .nutrition => ["nutrition", "diet", "protein", "calories"]
  | .biometric => ["blood pressure", "weight", "heart rate"]
  | .bioAgeScore => ["biological age", "bio age"]
  | .research => ["research", "study", "paper", "evidence"]
  | .general => ["help", "app"]

/-- The default configuration of the spec: threshold 0.5, +0.2 data
presence bonus, 0.5/0.5 embedding blend, +0.05 recency bonus, no
embedding backend. -/
def defaultConfig : RouterConfig :=
  ⟨defaultPhrases, none, 1/2, 1/5, 1/2, 1/20⟩

/-! ## Scoring (spec §4 steps 1–4)

Every adjustment step keeps its result inside `[0,1]`; the spec states
this clamping invariant explicitly (§8) and caps the individual steps
at 1.0 (§4 steps 1–2), so each step is written with an explicit clamp. -/

/-- Clamp a rational into the unit interval. -/
def clamp01 (x : ℚ) : ℚ := max 0 (min 1 x)

/-- Modelled from the spec: step 1 of `route` — the base relevancy score
of an agent: the fraction of the agent's curated phrase list that
matches the lower-cased query, capped at 1.0 (an empty phrase list
yields 0, since `ℚ` division by zero is zero). -/
def baseScore (cfg : RouterConfig) (query : String) (a : Agent) : ℚ :=
  clamp01 (((((cfg.phrases a).filter (fun p => phraseMatch query p)).length : ℚ))
    / (((cfg.phrases a).length : ℚ)))

/-- Modelled from the spec: step 2 of `route` — the data-presence bonus:
if the state holds an observation context whose data type corresponds
to the agent, add `dataBonus`, capped at 1.0. -/
def withDataScore (cfg : RouterConfig) (query : String) (state : RouterState)
    (a : Agent) : ℚ :=
  if state.contexts.any (fun c => (Agent.dataTypes a).contains c.1) then
    clamp01 (baseScore cfg query a + cfg.dataBonus)
  else
    baseScore cfg query a

/-- Modelled from the spec: step 3 of `route` — when an embedding
backend is available, blend the keyword score with the cosine
similarity between the query and the agent's description via a fixed
weighted average; when unavailable, the keyword score is used alone
(graceful degradation, not an error). -/
def blendScore (cfg : RouterConfig) (query : String) (state : RouterState)
    (a : Agent) : ℚ :=
  match cfg.embed with
  | none => withDataScore cfg query state a
  | some sim =>
      clamp01 ((1 - cfg.embedWeight) * withDataScore cfg query state a
        + cfg.embedWeight * sim query a)

/-- Modelled from the spec: step 4 of `route` — the recency bias: if the
most recent history entry selected this agent, add `recencyBonus`.
This is the final per-agent score. -/
def finalScore (cfg : RouterConfig) (query : String) (state : RouterState)
    (a : Agent) : ℚ :=
  match state.history.getLast? with
  | none => blendScore cfg query state a
  | some d =>
      if a ∈ d.selected then
        clamp01 (blendScore cfg query state a + cfg.recencyBonus)
      else
        blendScore cfg query state a

/-! ## Selection (spec §4 steps 5–7) -/

/-- Insert an agent into a list sorted by descending score: it goes in
front of the first strictly-smaller entry, hence after all entries of
greater or equal score. -/
def insertDesc (f : Agent → ℚ) (a : Agent) : List Agent → List Agent
  | [] => [a]
  | b :: bs => if f b < f a then a :: b :: bs else b :: insertDesc f a bs

/-- Stable sort by descending score: elements are inserted in their
original order, so equal scores keep the input (enumeration) order. -/
def sortDesc (f : Agent → ℚ) (l : List Agent) : List Agent :=
  l.foldl (fun acc a => insertDesc f a acc) []

/-- Modelled from the spec: steps 5 and 7 of `route` — all agents with
final score ≥ threshold, sorted descending by score with ties broken by
the fixed enumeration order; when no agent reaches the threshold the
`general` agent is selected unconditionally. -/
def selectedAgents (cfg : RouterConfig) (query : String) (state : RouterState) :
    List Agent :=
  if sortDesc (finalScore cfg query state)
      (Agent.all.filter (fun a => cfg.threshold ≤ finalScore cfg query state a)) = []
  then [Agent.general]
  else
    sortDesc (finalScore cfg query state)
      (Agent.all.filter (fun a => cfg.threshold ≤ finalScore cfg query state a))

/-- Modelled from the spec: the `route` operation (spec §4) — its
routing-decision part.  `scores` holds one entry per enumerated agent;
`combined` is set iff more than one agent was selected (steps 5–7). -/
def route (cfg : RouterConfig) (query : String) (state : RouterState) :
    RoutingDecision :=
  ⟨query,
   Agent.all.map (fun a => (a, finalScore cfg query state a)),
   selectedAgents cfg query state,
   decide (1 < (selectedAgents cfg query state).length)⟩

/-- Modelled from the spec: `combineResponses` (spec §4) — pure
formatting: joins per-agent answers, each prefixed with its agent's
name, with a labeled separator. -/
def combineResponses (parts : List (String × String)) : String :=
  String.intercalate "\n\n" (parts.map (fun p => "[" ++ p.1 ++ "] " ++ p.2))

/-- Modelled from the spec: the full `route` operation — the routing
decision, the aggregated textual response produced through the agent
collaborator `respond`, and the state with the decision appended to the
history (spec §4 steps 6–8). -/
def routeAndRespond (cfg : RouterConfig) (respond : Agent → String)
    (query : String) (state : RouterState) :
    RoutingDecision × String × RouterState :=
  let d := route cfg query state
  let text :=
    if d.combined then
      combineResponses (d.selected.map (fun a => (a.name, respond a)))
    else
      respond (d.selected.headD Agent.general)
  (d, text, ⟨state.contexts, state.history ++ [d]⟩)

/-! ## Upload handling (spec §4 `handleUpload`) -/

/-- Modelled from the spec: the only signaled failure of the router —
an unrecognized `dataType` on upload (spec §7). -/
inductive UploadError where
  | unsupportedDataType (dataType : String)
  deriving DecidableEq, Repr

/-- Modelled from the spec: the qualitative level of sleep data by the
spec's fixed thresholds (§4: hours < 6 → poor, 6–7 → fair, 7–9 → good,
else the optimal variant). -/
def sleepLevel (hours : ℚ) : QualLevel :=
  if hours < 6 then .poor
  else if hours < 7 then .fair
  else if hours ≤ 9 then .good
  else .optimal

/-- Modelled from the spec: the current qualitative state derived
deterministically from the raw data via category-specific thresholds;
the spec fixes only the sleep thresholds, the other categories default
to `good`. -/
def computeLevel (dataType : String) (raw : List (String × ℚ)) : QualLevel :=
  if dataType = "sleep" then sleepLevel (((raw.lookup "sleep_hours").getD 0))
  else .good

/-- Replace (wholesale, no incremental merge) the context of a data type
in the caller-held mapping (spec §3 lifecycle). -/
def replaceContext (contexts : List (String × ObservationContext))
    (dataType : String) (ctx : ObservationContext) :
    List (String × ObservationContext) :=
  contexts.filter (fun c => c.1 ≠ dataType) ++ [(dataType, ctx)]

/-- Modelled from the spec: the `handleUpload` operation (spec §4): an
unrecognized `dataType` signals `UnsupportedDataTypeError` and leaves
the state untouched; a recognized one builds a fresh context and
replaces any existing context of the same type. -/
def handleUpload (dataType : String) (raw : List (String × ℚ))
    (state : RouterState) :
    Except UploadError ObservationContext × RouterState :=
  if validDataTypes.contains dataType then
    let ctx : ObservationContext := ⟨dataType, raw, computeLevel dataType raw, .optimal⟩
    (.ok ctx, ⟨replaceContext state.contexts dataType ctx, state.history⟩)
  else
    (.error (.unsupportedDataType dataType), state)

/-! ## `dialecticService.ts` — `mapInteractionValue` and the mapping
phase of `updateDialecticWithMessage`

The server response is duck-typed in the TypeScript source; absent /
`undefined` fields are modelled as `Option`.  The oneof discriminator
`interaction.type.case` is kept as a plain string (unknown cases are
data, not errors). -/

/-- An extracted belief as read by `mapInteractionValue`
(`b.id`, `b.content`, both defaulted to `''`). -/
structure RawBelief where
  id : Option String
  content : Option String
  deriving DecidableEq, Repr

/-- One element of an `updatedBeliefs` array:
`{ id: string, content: Array<{ rawStr: string }> }` where the code
reads `b.content?.[0]?.rawStr || ''`. -/
structure RawUpdatedBelief where
  id : String
  content : Option (List (Option String))
  deriving DecidableEq, Repr

/-- The duck-typed `interaction.type.value` object: the union of every
field any branch of `mapInteractionValue` reads. -/
structure RawValue where
  updatedAtMillisUtc : Option Nat
  question : Option (Option String)
  answer : Option (Option String)
  extractedBeliefs : Option (List RawBelief)
  hypothesis : Option String
  evidence : Option String
  isCounterfactual : Option Bool
  updatedBeliefs : Option (List RawUpdatedBelief)
  action : Option String
  outcome : Option String
  deriving DecidableEq, Repr

/-- The `interaction.type` oneof container: discriminator string
(`none` models an unset `case`) and optional payload. -/
structure RawType where
  tyCase : Option String
  value : Option RawValue
  deriving DecidableEq, Repr

/-- The `InteractionData` object as consumed by the service: possibly
missing `type`. -/
structure RawInteractionData where
  rtype : Option RawType
  deriving DecidableEq, Repr

/-- One element of `response.dialectic.userInteractions`: an id and a
possibly-missing `interaction`. -/
structure RawUserInteraction where
  id : String
  interaction : Option RawInteractionData
  deriving DecidableEq, Repr

/-- A mapped belief (`{ id: b.id || '', content: b.content || '' }`). -/
structure Belief where
  id : String
  content : String
  deriving DecidableEq, Repr

/-- The `InteractionValue` union produced by `mapInteractionValue`: a
tagged value with the per-case payload (the `updatedAtMillisUtc`
string is the first field of each case). -/
inductive InteractionValue where
  | questionAnswer (updatedAtMillisUtc question answer : String)
      (extractedBeliefs : List Belief)
  | hypothesisEvidence (updatedAtMillisUtc hypothesis evidence : String)
      (isCounterfactual : Bool) (updatedBeliefs : Option (List Belief))
  | actionOutcome (updatedAtMillisUtc action outcome : String)
      (updatedBeliefs : Option (List Belief))
  deriving DecidableEq, Repr

/-- The `type` string of a mapped interaction value (the `type` field
set by each branch of `mapInteractionValue`). -/
def InteractionValue.tag : InteractionValue → String
  | .questionAnswer _ _ _ _ => "questionAnswer"
  | .hypothesisEvidence _ _ _ _ _ => "hypothesisEvidence"
  | .actionOutcome _ _ _ _ => "actionOutcome"

/-- Read of `b.content?.[0]?.rawStr || ''` for an updated belief. -/
def mapUpdatedBelief (b : RawUpdatedBelief) : Belief :=
  ⟨b.id, ((b.content.bind List.head?).bind id).getD ""⟩

/-- Function `mapInteractionValue` of `dialecticService.ts`: returns `null`
(`none`) when the payload is absent or the case is unknown, and
otherwise builds the tagged `InteractionValue`, defaulting every
missing field exactly as the source does (`|| ''`, `|| false`,
`|| "0"`). -/
def mapInteractionValue (interaction : RawInteractionData) : Option InteractionValue :=
  interaction.rtype.bind (fun t =>
    t.value.bind (fun v =>
      t.tyCase.bind (fun c =>
          if c = "questionAnswer" then
            some (.questionAnswer ((v.updatedAtMillisUtc.map toString).getD "0")
              ((v.question.bind id).getD "")
              ((v.answer.bind id).getD "")
              ((v.extractedBeliefs.getD []).map
                (fun b => ⟨b.id.getD "", b.content.getD ""⟩)))
          else if c = "hypothesisEvidence" then
            some (.hypothesisEvidence ((v.updatedAtMillisUtc.map toString).getD "0")
              (v.hypothesis.getD "")
              (v.evidence.getD "")
              (v.isCounterfactual.getD false)
              (v.updatedBeliefs.map (fun bs => bs.map mapUpdatedBelief)))
          else if c = "actionOutcome" then
            some (.actionOutcome ((v.updatedAtMillisUtc.map toString).getD "0")
              (v.action.getD "")
              (v.outcome.getD "")
              (v.updatedBeliefs.map (fun bs => bs.map mapUpdatedBelief)))
          else none)))

/-- An element of the mapped `userInteractions` list returned by
`updateDialecticWithMessage`
(`{ id, interaction: { type: { value } } }`, flattened). -/
structure MappedInteraction where
  id : String
  value : InteractionValue
  deriving DecidableEq, Repr

/-- The deduplication key `i.interaction?.type?.case` used by the
`reduce` accumulator (undefined links collapse to `none`). -/
def caseKey (u : RawUserInteraction) : Option String :=
  (u.interaction.bind RawInteractionData.rtype).bind RawType.tyCase

/-- One step of the `reduce` of `updateDialecticWithMessage`: skip
entries without an `interaction`, and push an entry only when no
already-kept entry has the same `type.case`. -/
def dedupeStep (acc : List RawUserInteraction) (curr : RawUserInteraction) :
    List RawUserInteraction :=
  match curr.interaction with
  | none => acc
  | some _ =>
      if acc.any (fun i => caseKey i == caseKey curr) then acc
      else acc ++ [curr]

/-- The full `reduce`: keep the first interaction of each
`type.case`, in input order. -/
def dedupeByCase (xs : List RawUserInteraction) : List RawUserInteraction :=
  xs.foldl dedupeStep []

/-- The in-place override performed on a mapped `questionAnswer` value
(`mappedValue.question = question; mappedValue.answer = answer`). -/
def qaOverride (question answer : String) : InteractionValue → InteractionValue
  | .questionAnswer u _ _ bs => .questionAnswer u question answer bs
  | other => other

/-- The `.map` body of `updateDialecticWithMessage`: map the raw
interaction value, overwrite `question`/`answer` with the call's
arguments when the mapped value is a `questionAnswer`, and keep the
entry's id; `null` results are modelled as `none`. -/
def mapStep (question answer : String) (i : RawUserInteraction) :
    Option MappedInteraction :=
  i.interaction.bind (fun d =>
    (mapInteractionValue d).map (fun mv => ⟨i.id, qaOverride question answer mv⟩))

/-- The pure mapping phase of
`DialecticService.updateDialecticWithMessage`: deduplicate the
server-returned interactions by `type.case` (keeping the first of each
case), map each survivor through `mapInteractionValue` with the
question/answer override, and filter out the `null`s. -/
def updateDialecticWithMessage (question answer : String)
    (userInteractions : List RawUserInteraction) : List MappedInteraction :=
  ((dedupeByCase userInteractions).map (mapStep question answer)).filterMap id

/-! ## `authService.ts` — the `AuthService` singleton

The mutable fields of the singleton (`apiKey`, `initializationPromise`)
become an explicit state record, extended with a counter of
`createDeveloperAndGetApiKey` invocations; the settled outcome of a
promise is an `Except`.  Each public call is a state transition taking
the environment's answer (the `createDeveloper` response, or a network
rejection) as input. -/

/-- The developer object of a `createDeveloper` response
(`createResponse.developer?.apiKeys?.[0]`). -/
structure Developer where
  apiKeys : Option (List String)
  deriving DecidableEq, Repr

/-- A `createDeveloper` response. -/
structure CreateResponse where
  developer : Option Developer
  deriving DecidableEq, Repr

/-- What the environment does when `createDeveloper` is actually
called: reject (network failure) or resolve with a response. -/
def CreateEnv : Type := Except String CreateResponse

instance (α β : Type) [DecidableEq α] [DecidableEq β] :
    DecidableEq (Except α β) := fun x y =>
  match x, y with
  | .error a, .error b =>
      if h : a = b then .isTrue (by rw [h]) else .isFalse (by simp [h])
  | .error _, .ok _ => .isFalse (by simp)
  | .ok _, .error _ => .isFalse (by simp)
  | .ok a, .ok b =>
      if h : a = b then .isTrue (by rw [h]) else .isFalse (by simp [h])

/-- The state of the `AuthService` singleton: the cached key, the
settled outcome of `initializationPromise` (if started), and how often
`createDeveloperAndGetApiKey` ran. -/
structure AuthState where
  apiKey : Option String
  initPromise : Option (Except String String)
  createCount : Nat
  deriving DecidableEq, Repr

/-- The freshly-constructed singleton. -/
def initialAuthState : AuthState := ⟨none, none, 0⟩

/-- JavaScript truthiness of the `apiKey` field
(`undefined`/`null`/`''` are falsy). -/
def strTruthy : Option String → Bool
  | none => false
  | some s => !(s == "")

/-- Extraction of `createResponse.developer?.apiKeys?.[0]`: a falsy
first key (missing or empty) throws
`'Failed to get API key from developer response'`. -/
def extractApiKey (resp : CreateResponse) : Except String String :=
  match resp.developer.bind (fun d => d.apiKeys.bind List.head?) with
  | none => .error "Failed to get API key from developer response"
  | some k =>
      if k == "" then .error "Failed to get API key from developer response"
      else .ok k

/-- Method `AuthService.createDeveloperAndGetApiKey`: calls the client
(whose answer, or rejection, is the environment input) and extracts
the first API key. -/
def createDeveloperAndGetApiKey (env : CreateEnv) : Except String String :=
  match env with
  | .error e => .error e
  | .ok resp => extractApiKey resp

/-- Method `AuthService.initialize`: return the cached key when truthy; start
`createDeveloperAndGetApiKey` only when no initialization promise
exists (recording its settled outcome and, on success, the cached
key); otherwise return the already-settled promise. -/
def authInit (env : CreateEnv) (s : AuthState) :
    Except String String × AuthState :=
  if strTruthy s.apiKey then (.ok (s.apiKey.getD ""), s)
  else
    match s.initPromise with
    | some r => (r, s)
    | none =>
        let r := createDeveloperAndGetApiKey env
        let key := match r with | .ok k => some k | .error _ => s.apiKey
        (r, ⟨key, some r, s.createCount + 1⟩)

/-- Method `AuthService.getApiKey`: initialize when the cached key is falsy
(propagating a rejection), then throw `'API key not initialized'` if
the key is still falsy, else return it. -/
def authGetApiKey (env : CreateEnv) (s : AuthState) :
    Except String String × AuthState :=
  if strTruthy s.apiKey then (.ok (s.apiKey.getD ""), s)
  else
    match (authInit env s).1 with
    | .error e => (.error e, (authInit env s).2)
    | .ok _ =>
        if strTruthy (authInit env s).2.apiKey then
          (.ok ((authInit env s).2.apiKey.getD ""), (authInit env s).2)
        else (.error "API key not initialized", (authInit env s).2)

/-- One public call on the singleton, with the environment's answer for
a potential `createDeveloper` round-trip. -/
inductive AuthOp where
  | init (env : CreateEnv)
  | getKey (env : CreateEnv)

/-- Run one call. -/
def runAuthOp (s : AuthState) : AuthOp → Except String String × AuthState
  | .init env => authInit env s
  | .getKey env => authGetApiKey env s

/-- Run a sequence of calls, collecting each call's outcome. -/
def runAuthTrace (s : AuthState) :
    List AuthOp → List (Except String String) × AuthState
  | [] => ([], s)
  | op :: rest =>
      ((runAuthOp s op).1 :: (runAuthTrace (runAuthOp s op).2 rest).1,
       (runAuthTrace (runAuthOp s op).2 rest).2)

/-! ## Proof-layer definitions and concrete fixtures -/

/-- The strict "descending score, ties by enumeration order" ordering
used by the selection step. -/
def scoreOrder (f : Agent → ℚ) (x y : Agent) : Prop :=
  f y < f x ∨ (f x = f y ∧ x.idx < y.idx)

/-- A state whose only history entry selected the exercise agent. -/
def histState : RouterState := ⟨[], [⟨"q0", [], [Agent.exercise], false⟩]⟩

/-- The predicate "carries an interaction and has dedup key `k`". -/
def hasCase (k : Option String) (v : RawUserInteraction) : Bool :=
  v.interaction.isSome && (caseKey v == k)

/-- A concrete server interaction of case `questionAnswer` whose
payload differs from the call arguments. -/
def rawQA1 : RawUserInteraction :=
  ⟨"i1", some ⟨some ⟨some "questionAnswer",
    some ⟨some 5, some (some "srvQ"), some (some "srvA"),
      some [⟨some "b1", some "belief one"⟩],
      none, none, none, none, none, none⟩⟩⟩⟩

/-- A second `questionAnswer` interaction (to be deduplicated away). -/
def rawQA2 : RawUserInteraction :=
  ⟨"i2", some ⟨some ⟨some "questionAnswer",
    some ⟨none, some (some "other"), none, none,
      none, none, none, none, none, none⟩⟩⟩⟩

/-- The mapped interaction expected for `rawQA1` under question `"Q"`
and answer `"A"`. -/
def mappedQA1 : MappedInteraction :=
  ⟨"i1", .questionAnswer "5" "Q" "A" [⟨"b1", "belief one"⟩]⟩

/-- The state invariant of the singleton: a promise exists iff a
creation ran (exactly once); a cached key is nonempty and matches a
successfully settled promise, and conversely. -/
def AuthInv (s : AuthState) : Prop :=
  (s.initPromise = none → s.apiKey = none ∧ s.createCount = 0)
  ∧ (∀ r, s.initPromise = some r → s.createCount = 1)
  ∧ (∀ k, s.apiKey = some k → k ≠ "" ∧ s.initPromise = some (.ok k))
  ∧ (∀ k, s.initPromise = some (.ok k) → s.apiKey = some k ∧ k ≠ "")

/-- A `createDeveloper` response carrying the key `"K1"`. -/
def okEnv : CreateEnv := .ok ⟨some ⟨some ["K1", "K2"]⟩⟩

/-- A rejected `createDeveloper` round-trip. -/
def badEnv : CreateEnv := .error "network down"

/-! ## Supporting lemmas: clamping and scoring -/

theorem Agent.mem_all (a : Agent) : a ∈ Agent.all := by
  cases a <;> simp [Agent.all]


theorem clamp01_nonneg (x : ℚ) : 0 ≤ clamp01 x := le_max_left 0 _

theorem clamp01_le_one (x : ℚ) : clamp01 x ≤ 1 :=
  max_le zero_le_one (min_le_left 1 x)

theorem clamp01_eq_min_of_nonneg {x : ℚ} (hx : 0 ≤ x) : clamp01 x = min x 1 := by
  rw [clamp01, min_comm x 1, max_eq_right]
  exact le_min zero_le_one hx

theorem baseScore_bounds (cfg : RouterConfig) (q : String) (a : Agent) :
    0 ≤ baseScore cfg q a ∧ baseScore cfg q a ≤ 1 :=
  ⟨clamp01_nonneg _, clamp01_le_one _⟩

theorem withDataScore_bounds (cfg : RouterConfig) (q : String) (s : RouterState)
    (a : Agent) : 0 ≤ withDataScore cfg q s a ∧ withDataScore cfg q s a ≤ 1 := by
  unfold withDataScore
  split
  · exact ⟨clamp01_nonneg _, clamp01_le_one _⟩
  · exact baseScore_bounds cfg q a

theorem blendScore_bounds (cfg : RouterConfig) (q : String) (s : RouterState)
    (a : Agent) : 0 ≤ blendScore cfg q s a ∧ blendScore cfg q s a ≤ 1 := by
  unfold blendScore
  split
  · exact withDataScore_bounds cfg q s a
  · exact ⟨clamp01_nonneg _, clamp01_le_one _⟩

theorem finalScore_bounds (cfg : RouterConfig) (q : String) (s : RouterState)
    (a : Agent) : 0 ≤ finalScore cfg q s a ∧ finalScore cfg q s a ≤ 1 := by
  unfold finalScore
  split
  · exact blendScore_bounds cfg q s a
  · split
    · exact ⟨clamp01_nonneg _, clamp01_le_one _⟩
    · exact blendScore_bounds cfg q s a

/-- With no uploaded contexts the data-presence bonus never fires. -/
theorem withDataScore_of_no_contexts (cfg : RouterConfig) (q : String)
    (s : RouterState) (hc : s.contexts = []) (a : Agent) :
    withDataScore cfg q s a = baseScore cfg q a := by
  unfold withDataScore
  rw [hc]
  simp

/-- With no embedding backend the blend step is the keyword score. -/
theorem blendScore_of_no_embed (cfg : RouterConfig) (q : String)
    (s : RouterState) (he : cfg.embed = none) (a : Agent) :
    blendScore cfg q s a = withDataScore cfg q s a := by
  unfold blendScore
  rw [he]

/-- Fully degraded path: no embedding backend, no contexts, no history —
the final score is exactly the keyword score. -/
theorem finalScore_degraded (cfg : RouterConfig) (q : String) (s : RouterState)
    (he : cfg.embed = none) (hc : s.contexts = []) (hh : s.history = [])
    (a : Agent) : finalScore cfg q s a = baseScore cfg q a := by
  unfold finalScore
  rw [hh]
  simp only [List.getLast?_nil]
  rw [blendScore_of_no_embed cfg q s he, withDataScore_of_no_contexts cfg q s hc]

/-! ## Supporting lemmas: selection -/

theorem scoreOrder_le {f : Agent → ℚ} {x y : Agent} (h : scoreOrder f x y) :
    f y ≤ f x := by
  rcases h with h | ⟨h, _⟩
  · exact le_of_lt h
  · exact le_of_eq h.symm

theorem mem_insertDesc {f : Agent → ℚ} {a x : Agent} :
    ∀ {l : List Agent}, x ∈ insertDesc f a l ↔ x = a ∨ x ∈ l := by
  intro l
  induction l with
  | nil => simp [insertDesc]
  | cons b bs ih =>
      unfold insertDesc
      split
      · simp
      · simp only [List.mem_cons, ih]
        tauto

theorem length_insertDesc (f : Agent → ℚ) (a : Agent) :
    ∀ (l : List Agent), (insertDesc f a l).length = l.length + 1 := by
  intro l
  induction l with
  | nil => rfl
  | cons b bs ih =>
      unfold insertDesc
      split
      · simp
      · simp [ih]

theorem insertDesc_pairwise {f : Agent → ℚ} {a : Agent} :
    ∀ {l : List Agent}, l.Pairwise (scoreOrder f) → (∀ b ∈ l, b.idx < a.idx) →
      (insertDesc f a l).Pairwise (scoreOrder f) := by
  intro l
  induction l with
  | nil => intro _ _; simp [insertDesc]
  | cons b bs ih =>
      intro hp hidx
      rcases List.pairwise_cons.mp hp with ⟨hb, hbs⟩
      unfold insertDesc
      split
      · rename_i hlt
        refine List.pairwise_cons.mpr ⟨?_, hp⟩
        intro x hx
        rcases List.mem_cons.mp hx with rfl | hx
        · exact Or.inl hlt
        · exact Or.inl (lt_of_le_of_lt (scoreOrder_le (hb x hx)) hlt)
      · rename_i hnlt
        have hba : f a ≤ f b := le_of_not_lt hnlt
        refine List.pairwise_cons.mpr ⟨?_, ?_⟩
        · intro x hx
          rcases mem_insertDesc.mp hx with rfl | hx
          · rcases lt_or_eq_of_le hba with h | h
            · exact Or.inl h
            · exact Or.inr ⟨h.symm, hidx b (List.mem_cons_self b bs)⟩
          · exact hb x hx
        · exact ih hbs (fun c hc => hidx c (List.mem_cons_of_mem b hc))

theorem sortDesc_foldl_mem {f : Agent → ℚ} {x : Agent} :
    ∀ (l acc : List Agent),
      (x ∈ l.foldl (fun acc a => insertDesc f a acc) acc ↔ x ∈ acc ∨ x ∈ l) := by
  intro l
  induction l with
  | nil => simp
  | cons b bs ih =>
      intro acc
      simp only [List.foldl_cons]
      rw [ih (insertDesc f b acc)]
      simp only [mem_insertDesc, List.mem_cons]
      tauto

theorem mem_sortDesc {f : Agent → ℚ} {x : Agent} {l : List Agent} :
    x ∈ sortDesc f l ↔ x ∈ l := by
  unfold sortDesc
  rw [sortDesc_foldl_mem l []]
  simp

theorem sortDesc_foldl_length (f : Agent → ℚ) :
    ∀ (l acc : List Agent),
      (l.foldl (fun acc a => insertDesc f a acc) acc).length =
        acc.length + l.length := by
  intro l
  induction l with
  | nil => simp
  | cons b bs ih =>
      intro acc
      simp only [List.foldl_cons]
      rw [ih (insertDesc f b acc), length_insertDesc]
      simp only [List.length_cons]
      omega

theorem length_sortDesc (f : Agent → ℚ) (l : List Agent) :
    (sortDesc f l).length = l.length := by
  unfold sortDesc
  rw [sortDesc_foldl_length]
  simp

theorem sortDesc_foldl_pairwise {f : Agent → ℚ} :
    ∀ (l acc : List Agent), l.Pairwise (fun x y => x.idx < y.idx) →
      acc.Pairwise (scoreOrder f) → (∀ b ∈ acc, ∀ x ∈ l, b.idx < x.idx) →
      (l.foldl (fun acc a => insertDesc f a acc) acc).Pairwise (scoreOrder f) := by
  intro l
  induction l with
  | nil => intro acc _ h _; simpa using h
  | cons b bs ih =>
      intro acc hl hacc hcross
      rcases List.pairwise_cons.mp hl with ⟨hbidx, hbs⟩
      simp only [List.foldl_cons]
      refine ih (insertDesc f b acc) hbs ?_ ?_
      · exact insertDesc_pairwise hacc
          (fun c hc => hcross c hc b (List.mem_cons_self b bs))
      · intro c hc x hx
        rcases mem_insertDesc.mp hc with rfl | hc
        · exact hbidx x hx
        · exact hcross c hc x (List.mem_cons_of_mem b hx)

theorem sortDesc_pairwise {f : Agent → ℚ} {l : List Agent}
    (hl : l.Pairwise (fun x y => x.idx < y.idx)) :
    (sortDesc f l).Pairwise (scoreOrder f) := by
  unfold sortDesc
  exact sortDesc_foldl_pairwise l [] hl (by simp) (by simp)

theorem agentAll_pairwise_idx :
    Agent.all.Pairwise (fun x y => x.idx < y.idx) := by
  simp [Agent.all, List.pairwise_cons, Agent.idx]

/-- When no agent reaches the threshold, the selection falls back to
the `general` agent. -/
theorem selectedAgents_of_all_below (cfg : RouterConfig) (q : String)
    (s : RouterState)
    (h : ∀ a, finalScore cfg q s a < cfg.threshold) :
    selectedAgents cfg q s = [Agent.general] := by
  unfold selectedAgents
  have hfilter :
      Agent.all.filter (fun a => cfg.threshold ≤ finalScore cfg q s a) = [] := by
    rw [List.filter_eq_nil_iff]
    intro a _
    simpa using not_le.mpr (h a)
  rw [hfilter]
  rfl

/-- When some agent reaches the threshold the fallback is not used:
the selection is exactly the sorted filter. -/
theorem selectedAgents_of_some_above (cfg : RouterConfig) (q : String)
    (s : RouterState) (h : ∃ a, cfg.threshold ≤ finalScore cfg q s a) :
    selectedAgents cfg q s =
      sortDesc (finalScore cfg q s)
        (Agent.all.filter (fun a => cfg.threshold ≤ finalScore cfg q s a)) := by
  unfold selectedAgents
  rcases h with ⟨a, ha⟩
  have hmem : a ∈ Agent.all.filter (fun a => cfg.threshold ≤ finalScore cfg q s a) := by
    rw [List.mem_filter]
    exact ⟨Agent.mem_all a, by simpa using ha⟩
  have hne :
      sortDesc (finalScore cfg q s)
        (Agent.all.filter (fun a => cfg.threshold ≤ finalScore cfg q s a)) ≠ [] := by
    intro hnil
    have hlen := length_sortDesc (finalScore cfg q s)
      (Agent.all.filter (fun a => cfg.threshold ≤ finalScore cfg q s a))
    rw [hnil] at hlen
    have hpos := List.length_pos_of_mem hmem
    simp only [List.length_nil] at hlen
    omega
  simp only [if_neg hne]

/-- Two distinct members force at least two elements. -/
theorem one_lt_length_of_mem_ne {α : Type} {l : List α} {a b : α}
    (ha : a ∈ l) (hb : b ∈ l) (hab : a ≠ b) : 1 < l.length := by
  match l with
  | [] => cases ha
  | [x] =>
      rw [List.mem_singleton] at ha hb
      exact absurd (ha.trans hb.symm) hab
  | x :: y :: t =>
      simp only [List.length_cons]
      omega

/-! ## Claim theorems: the query router (modelled from the spec) -/

/-- C7: after each adjustment step of `route`'s scoring — base keyword
score, data-presence bonus, embedding blend, recency bonus — every
agent's score lies in the closed interval [0, 1]. -/
theorem scores_clamped_each_step (cfg : RouterConfig) (q : String)
    (s : RouterState) (a : Agent) :
    (0 ≤ baseScore cfg q a ∧ baseScore cfg q a ≤ 1)
    ∧ (0 ≤ withDataScore cfg q s a ∧ withDataScore cfg q s a ≤ 1)
    ∧ (0 ≤ blendScore cfg q s a ∧ blendScore cfg q s a ≤ 1)
    ∧ (0 ≤ finalScore cfg q s a ∧ finalScore cfg q s a ≤ 1) :=
  ⟨baseScore_bounds cfg q a, withDataScore_bounds cfg q s a,
   blendScore_bounds cfg q s a, finalScore_bounds cfg q s a⟩

/-- C3: the base relevancy score computed by `route` equals the
fraction of the agent's curated keyword/phrase list that matches the
lower-cased query, capped at 1.0. -/
theorem baseScore_eq_matched_fraction (cfg : RouterConfig) (q : String)
    (a : Agent) :
    baseScore cfg q a =
      min ((((cfg.phrases a).countP (fun p => phraseMatch q p) : ℚ))
        / (((cfg.phrases a).length : ℚ))) 1 := by
  unfold baseScore
  rw [List.countP_eq_length_filter]
  exact clamp01_eq_min_of_nonneg (by positivity)

/-- C1: for every non-empty query and every router state, `route`
returns a decision with a non-empty `selected` list, and whenever no
agent's final score reaches the threshold the `general` agent is
selected unconditionally. -/
theorem route_selected_nonempty (cfg : RouterConfig) (q : String)
    (s : RouterState) (hq : q ≠ "") :
    (route cfg q s).selected ≠ []
    ∧ ((∀ a, finalScore cfg q s a < cfg.threshold) →
        (route cfg q s).selected = [Agent.general]) := by
  constructor
  · show selectedAgents cfg q s ≠ []
    unfold selectedAgents
    split
    · simp
    · assumption
  · intro h
    exact selectedAgents_of_all_below cfg q s h

/-- Witness for C1 at a concrete query and the empty state. -/
theorem route_selected_nonempty_witness :
    "How did I sleep last night?" ≠ ""
    ∧ (route defaultConfig "How did I sleep last night?" emptyState).selected ≠ [] :=
  ⟨by decide,
   (route_selected_nonempty defaultConfig "How did I sleep last night?" emptyState
     (by decide)).1⟩

/-- C4 (amended): provided at least one agent reaches the threshold
(otherwise the fallback of step 7 selects `general` regardless of its
score), `selected` consists of exactly the agents whose final score is
at least the threshold, in descending order of score with ties broken
by the fixed enumeration order. -/
theorem route_selected_above_threshold_sorted (cfg : RouterConfig) (q : String)
    (s : RouterState) (h : ∃ a, cfg.threshold ≤ finalScore cfg q s a) :
    (∀ a, a ∈ (route cfg q s).selected ↔ cfg.threshold ≤ finalScore cfg q s a)
    ∧ (route cfg q s).selected.Pairwise (scoreOrder (finalScore cfg q s)) := by
  have hsel := selectedAgents_of_some_above cfg q s h
  constructor
  · intro a
    show a ∈ selectedAgents cfg q s ↔ _
    rw [hsel, mem_sortDesc, List.mem_filter]
    simp [Agent.mem_all]
  · show (selectedAgents cfg q s).Pairwise _
    rw [hsel]
    exact sortDesc_pairwise (agentAll_pairwise_idx.sublist (List.filter_sublist _))

/-- C4 counterexample: on the query `"zzz"` with the default
configuration and a fresh state no agent reaches the threshold, yet
the returned `selected` list contains the `general` agent, whose final
score is below the threshold — so `selected` is not exactly the set of
agents with score ≥ threshold. -/
theorem route_selected_threshold_counterexample :
    Agent.general ∈ (route defaultConfig "zzz" emptyState).selected
    ∧ finalScore defaultConfig "zzz" emptyState Agent.general
        < defaultConfig.threshold := by
  have hflt : ∀ a : Agent,
      (defaultConfig.phrases a).filter (fun p => phraseMatch "zzz" p) = [] := by
    intro a
    cases a <;> decide
  have hbase : ∀ a : Agent, baseScore defaultConfig "zzz" a = 0 := by
    intro a
    unfold baseScore
    rw [hflt a]
    norm_num [clamp01]
  have hfin : ∀ a : Agent, finalScore defaultConfig "zzz" emptyState a = 0 := by
    intro a
    rw [finalScore_degraded defaultConfig "zzz" emptyState rfl rfl rfl a, hbase a]
  have hsel : (route defaultConfig "zzz" emptyState).selected = [Agent.general] := by
    show selectedAgents defaultConfig "zzz" emptyState = _
    apply selectedAgents_of_all_below
    intro a
    rw [hfin a]
    norm_num [defaultConfig]
  refine ⟨?_, ?_⟩
  · rw [hsel]
    simp
  · rw [hfin Agent.general]
    norm_num [defaultConfig]

/-- Witness for C4 (amended) at a query that puts the exercise agent
over the threshold. -/
theorem route_selected_above_threshold_sorted_witness :
    (∃ a, defaultConfig.threshold ≤ finalScore defaultConfig
      "exercise workout active calories nutrition diet protein" emptyState a)
    ∧ (Agent.exercise ∈ (route defaultConfig
        "exercise workout active calories nutrition diet protein" emptyState).selected
      ↔ defaultConfig.threshold ≤ finalScore defaultConfig
          "exercise workout active calories nutrition diet protein" emptyState
          Agent.exercise) := by
  have hflt : (defaultConfig.phrases Agent.exercise).filter
      (fun p => phraseMatch "exercise workout active calories nutrition diet protein" p)
      = ["exercise", "workout", "active calories"] := by decide
  have hex : defaultConfig.threshold ≤ finalScore defaultConfig
      "exercise workout active calories nutrition diet protein" emptyState
      Agent.exercise := by
    rw [finalScore_degraded defaultConfig _ emptyState rfl rfl rfl Agent.exercise]
    unfold baseScore
    rw [hflt]
    norm_num [clamp01, defaultConfig, defaultPhrases]
  exact ⟨⟨Agent.exercise, hex⟩,
    (route_selected_above_threshold_sorted defaultConfig _ emptyState
      ⟨Agent.exercise, hex⟩).1 Agent.exercise⟩

/-- C2: `combined` is true iff more than one agent is selected; in the
combined case the textual response is the concatenation of each
selected agent's answer, each prefixed by its agent name, in
`selected` order; and any two distinct agents above the threshold
force the combined case. -/
theorem route_combined_iff_multi (cfg : RouterConfig) (respond : Agent → String)
    (q : String) (s : RouterState) :
    ((route cfg q s).combined = true ↔ 1 < (route cfg q s).selected.length)
    ∧ ((route cfg q s).combined = true →
        (routeAndRespond cfg respond q s).2.1 =
          combineResponses
            ((route cfg q s).selected.map (fun a => (a.name, respond a))))
    ∧ (∀ a b : Agent, a ≠ b →
        cfg.threshold ≤ finalScore cfg q s a →
        cfg.threshold ≤ finalScore cfg q s b →
        (route cfg q s).combined = true) := by
  refine ⟨?_, ?_, ?_⟩
  · show decide (1 < (selectedAgents cfg q s).length) = true ↔ _
    exact decide_eq_true_iff
  · intro hc
    show (if (route cfg q s).combined then _ else _) = _
    rw [hc]
    simp
  · intro a b hab ha hb
    have hsel := selectedAgents_of_some_above cfg q s ⟨a, ha⟩
    have hmema : a ∈ Agent.all.filter
        (fun x => cfg.threshold ≤ finalScore cfg q s x) :=
      List.mem_filter.mpr ⟨Agent.mem_all a, by simpa using ha⟩
    have hmemb : b ∈ Agent.all.filter
        (fun x => cfg.threshold ≤ finalScore cfg q s x) :=
      List.mem_filter.mpr ⟨Agent.mem_all b, by simpa using hb⟩
    have hlen := one_lt_length_of_mem_ne hmema hmemb hab
    show decide (1 < (selectedAgents cfg q s).length) = true
    apply decide_eq_true
    rw [hsel, length_sortDesc]
    exact hlen

/-- Witness for C2: a query matching both the exercise and the
nutrition phrase lists above threshold yields a combined decision. -/
theorem route_combined_iff_multi_witness :
    Agent.exercise ≠ Agent.nutrition
    ∧ defaultConfig.threshold ≤ finalScore defaultConfig
        "exercise workout active calories nutrition diet protein" emptyState
        Agent.exercise
    ∧ defaultConfig.threshold ≤ finalScore defaultConfig
        "exercise workout active calories nutrition diet protein" emptyState
        Agent.nutrition
    ∧ (route defaultConfig
        "exercise workout active calories nutrition diet protein" emptyState).combined
        = true := by
  have hfltE : (defaultConfig.phrases Agent.exercise).filter
      (fun p => phraseMatch "exercise workout active calories nutrition diet protein" p)
      = ["exercise", "workout", "active calories"] := by decide
  have hfltN : (defaultConfig.phrases Agent.nutrition).filter
      (fun p => phraseMatch "exercise workout active calories nutrition diet protein" p)
      = ["nutrition", "diet", "protein", "calories"] := by decide
  have hex : defaultConfig.threshold ≤ finalScore defaultConfig
      "exercise workout active calories nutrition diet protein" emptyState
      Agent.exercise := by
    rw [finalScore_degraded defaultConfig _ emptyState rfl rfl rfl Agent.exercise]
    unfold baseScore
    rw [hfltE]
    norm_num [clamp01, defaultConfig, defaultPhrases]
  have hnu : defaultConfig.threshold ≤ finalScore defaultConfig
      "exercise workout active calories nutrition diet protein" emptyState
      Agent.nutrition := by
    rw [finalScore_degraded defaultConfig _ emptyState rfl rfl rfl Agent.nutrition]
    unfold baseScore
    rw [hfltN]
    norm_num [clamp01, defaultConfig, defaultPhrases]
  exact ⟨by decide, hex, hnu,
    (route_combined_iff_multi defaultConfig (fun a => a.name) _ emptyState).2.2
      Agent.exercise Agent.nutrition (by decide) hex hnu⟩

/-- C6 (amended): the routing-decision computation is a total function
— the decision always carries one score per enumerated agent — and the
degradation paths are by design: with no embedding backend and no
uploaded contexts every final score is the keyword score, up to at most
the recency-bias term; with an empty history it is exactly the keyword
score (hence all-zero when nothing matches). -/
theorem route_scores_degraded (cfg : RouterConfig) (q : String) (s : RouterState)
    (he : cfg.embed = none) (hc : s.contexts = []) :
    ((route cfg q s).scores = Agent.all.map (fun a => (a, finalScore cfg q s a)))
    ∧ (∀ a, finalScore cfg q s a = baseScore cfg q a
        ∨ finalScore cfg q s a = clamp01 (baseScore cfg q a + cfg.recencyBonus))
    ∧ (s.history = [] → ∀ a, finalScore cfg q s a = baseScore cfg q a) := by
  refine ⟨rfl, ?_, ?_⟩
  · intro a
    cases hL : s.history.getLast? with
    | none =>
        left
        unfold finalScore
        rw [hL, blendScore_of_no_embed cfg q s he,
          withDataScore_of_no_contexts cfg q s hc]
    | some d =>
        by_cases hmem : a ∈ d.selected
        · right
          unfold finalScore
          rw [hL]
          show (if a ∈ d.selected then
              clamp01 (blendScore cfg q s a + cfg.recencyBonus)
            else blendScore cfg q s a) = _
          rw [if_pos hmem, blendScore_of_no_embed cfg q s he,
            withDataScore_of_no_contexts cfg q s hc]
        · left
          unfold finalScore
          rw [hL]
          show (if a ∈ d.selected then
              clamp01 (blendScore cfg q s a + cfg.recencyBonus)
            else blendScore cfg q s a) = _
          rw [if_neg hmem, blendScore_of_no_embed cfg q s he,
            withDataScore_of_no_contexts cfg q s hc]
  · intro hh a
    exact finalScore_degraded cfg q s he hc hh a

/-- C6 counterexample: with empty contexts and no embedding backend but
a non-empty history, the exercise agent's final score on the query
`"zzz"` is the recency bonus — neither zero nor its keyword score, so
the degradation paths do not yield "all-zero or keyword-only scores"
for every state. -/
theorem route_scores_recency_counterexample :
    finalScore defaultConfig "zzz" histState Agent.exercise ≠ 0
    ∧ finalScore defaultConfig "zzz" histState Agent.exercise
        ≠ baseScore defaultConfig "zzz" Agent.exercise := by
  have hbase : baseScore defaultConfig "zzz" Agent.exercise = 0 := by
    have hflt : (defaultConfig.phrases Agent.exercise).filter
        (fun p => phraseMatch "zzz" p) = [] := by decide
    unfold baseScore
    rw [hflt]
    norm_num [clamp01]
  have hfin : finalScore defaultConfig "zzz" histState Agent.exercise
      = clamp01 (0 + defaultConfig.recencyBonus) := by
    unfold finalScore
    rw [show histState.history.getLast?
        = some ⟨"q0", [], [Agent.exercise], false⟩ from rfl]
    show (if Agent.exercise ∈
        (⟨"q0", [], [Agent.exercise], false⟩ : RoutingDecision).selected then
        clamp01 (blendScore defaultConfig "zzz" histState Agent.exercise
          + defaultConfig.recencyBonus)
      else blendScore defaultConfig "zzz" histState Agent.exercise) = _
    rw [if_pos (by decide : Agent.exercise ∈
      (⟨"q0", [], [Agent.exercise], false⟩ : RoutingDecision).selected)]
    rw [blendScore_of_no_embed defaultConfig "zzz" histState rfl,
      withDataScore_of_no_contexts defaultConfig "zzz" histState rfl, hbase]
  rw [hfin, hbase]
  constructor
  · norm_num [clamp01, defaultConfig]
  · norm_num [clamp01, defaultConfig]

/-- Witness for C6 (amended) at the empty state. -/
theorem route_scores_degraded_witness :
    defaultConfig.embed = none
    ∧ emptyState.contexts = []
    ∧ (route defaultConfig "zzz" emptyState).scores
        = Agent.all.map (fun a => (a, finalScore defaultConfig "zzz" emptyState a)) :=
  ⟨rfl, rfl, (route_scores_degraded defaultConfig "zzz" emptyState rfl rfl).1⟩

/-- C5: `handleUpload` with a `dataType` outside the fixed enumeration
signals `UnsupportedDataTypeError` synchronously and leaves
`RouterState.contexts` unchanged. -/
theorem handleUpload_unsupported_no_mutation (dt : String)
    (raw : List (String × ℚ)) (s : RouterState) (h : dt ∉ validDataTypes) :
    handleUpload dt raw s
      = (.error (.unsupportedDataType dt), s)
    ∧ (handleUpload dt raw s).2.contexts = s.contexts := by
  have hc : validDataTypes.contains dt = false := by
    cases hcc : validDataTypes.contains dt with
    | false => rfl
    | true => exact absurd (by simpa using hcc) h
  have hmain : handleUpload dt raw s = (.error (.unsupportedDataType dt), s) := by
    unfold handleUpload
    rw [hc]
    simp
  exact ⟨hmain, by rw [hmain]⟩

/-- Witness for C5 at the unsupported data type `"foo"`. -/
theorem handleUpload_unsupported_no_mutation_witness :
    "foo" ∉ validDataTypes
    ∧ handleUpload "foo" [] emptyState
        = (.error (.unsupportedDataType "foo"), emptyState) :=
  ⟨by decide,
   (handleUpload_unsupported_no_mutation "foo" [] emptyState (by decide)).1⟩

/-- C8: routing scoring is a pure function of `(query, contexts,
history)` — two `route` calls with identical query, contexts and
history (and arbitrary, even different, agent collaborators) produce
identical scores for every agent, the recency-bias term included. -/
theorem route_scores_pure_function (cfg : RouterConfig)
    (respond₁ respond₂ : Agent → String) (q : String) (s₁ s₂ : RouterState)
    (hc : s₁.contexts = s₂.contexts) (hh : s₁.history = s₂.history) :
    (routeAndRespond cfg respond₁ q s₁).1.scores
      = (routeAndRespond cfg respond₂ q s₂).1.scores := by
  cases s₁
  cases s₂
  simp only at hc hh
  subst hc
  subst hh
  rfl

/-- Witness for C8 with two different collaborators. -/
theorem route_scores_pure_function_witness :
    emptyState.contexts = emptyState.contexts
    ∧ emptyState.history = emptyState.history
    ∧ (routeAndRespond defaultConfig (fun _ => "left") "q" emptyState).1.scores
        = (routeAndRespond defaultConfig (fun _ => "right") "q" emptyState).1.scores :=
  ⟨rfl, rfl,
   route_scores_pure_function defaultConfig (fun _ => "left") (fun _ => "right")
     "q" emptyState emptyState rfl rfl⟩

/-! ## Supporting lemmas: the dialectic response mapping -/

theorem find?_append_some {α : Type} {p : α → Bool} {xs ys : List α} {r : α}
    (h : xs.find? p = some r) : (xs ++ ys).find? p = some r := by
  induction xs with
  | nil => cases h
  | cons x xt ih =>
      rw [List.cons_append]
      by_cases hx : p x = true
      · rw [List.find?_cons_of_pos _ hx] at h
        rw [List.find?_cons_of_pos _ hx]
        exact h
      · rw [List.find?_cons_of_neg _ hx] at h
        rw [List.find?_cons_of_neg _ hx]
        exact ih h

theorem find?_append_none {α : Type} {p : α → Bool} {xs ys : List α}
    (h : xs.find? p = none) : (xs ++ ys).find? p = ys.find? p := by
  induction xs with
  | nil => simp
  | cons x xt ih =>
      rw [List.cons_append]
      by_cases hx : p x = true
      · rw [List.find?_cons_of_pos _ hx] at h
        cases h
      · rw [List.find?_cons_of_neg _ hx] at h
        rw [List.find?_cons_of_neg _ hx]
        exact ih h

theorem mem_dedupeStep {acc : List RawUserInteraction}
    {b x : RawUserInteraction} (h : x ∈ dedupeStep acc b) :
    x ∈ acc ∨ x = b := by
  unfold dedupeStep at h
  cases hb : b.interaction with
  | none => rw [hb] at h; exact Or.inl h
  | some d =>
      rw [hb] at h
      change x ∈ (if (acc.any fun i => caseKey i == caseKey b) = true
        then acc else acc ++ [b]) at h
      by_cases hc : (acc.any fun i => caseKey i == caseKey b) = true
      · rw [if_pos hc] at h
        exact Or.inl h
      · rw [if_neg hc] at h
        rcases List.mem_append.mp h with h | h
        · exact Or.inl h
        · exact Or.inr (List.mem_singleton.mp h)

theorem subset_dedupeStep (acc : List RawUserInteraction)
    (b : RawUserInteraction) : acc ⊆ dedupeStep acc b := by
  intro x hx
  unfold dedupeStep
  cases hb : b.interaction with
  | none => exact hx
  | some d =>
      change x ∈ (if (acc.any fun i => caseKey i == caseKey b) = true
        then acc else acc ++ [b])
      by_cases hc : (acc.any fun i => caseKey i == caseKey b) = true
      · rw [if_pos hc]
        exact hx
      · rw [if_neg hc]
        exact List.mem_append_left _ hx

theorem mem_foldl_dedupe {x : RawUserInteraction} :
    ∀ (l acc : List RawUserInteraction),
      x ∈ l.foldl dedupeStep acc → x ∈ acc ∨ x ∈ l := by
  intro l
  induction l with
  | nil => intro acc h; exact Or.inl h
  | cons b bs ih =>
      intro acc h
      rw [List.foldl_cons] at h
      rcases ih (dedupeStep acc b) h with h' | h'
      · rcases mem_dedupeStep h' with h'' | rfl
        · exact Or.inl h''
        · exact Or.inr (List.mem_cons_self _ _)
      · exact Or.inr (List.mem_cons_of_mem _ h')

theorem foldl_dedupe_keys_nodup :
    ∀ (l acc : List RawUserInteraction), (acc.map caseKey).Nodup →
      ((l.foldl dedupeStep acc).map caseKey).Nodup := by
  intro l
  induction l with
  | nil => intro acc h; exact h
  | cons b bs ih =>
      intro acc h
      rw [List.foldl_cons]
      refine ih (dedupeStep acc b) ?_
      unfold dedupeStep
      cases hb : b.interaction with
      | none => exact h
      | some d =>
          change (List.map caseKey (if (acc.any fun i => caseKey i == caseKey b) = true
            then acc else acc ++ [b])).Nodup
          by_cases hany : (acc.any fun i => caseKey i == caseKey b) = true
          · rw [if_pos hany]
            exact h
          · rw [if_neg hany, List.map_append, List.map_singleton]
            have hdisj : List.Disjoint (acc.map caseKey) [caseKey b] := by
              intro k hk hk'
              rw [List.mem_singleton] at hk'
              subst hk'
              rcases List.mem_map.mp hk with ⟨i, hi, hkey⟩
              exact hany (List.any_eq_true.mpr
                ⟨i, hi, by rw [hkey]; exact beq_self_eq_true _⟩)
            exact List.Nodup.append h (List.nodup_singleton _) hdisj

/-- The central invariant of the `reduce`: every kept entry is the
first entry of the processed input that carries an interaction with
its dedup key. -/
theorem foldl_dedupe_first :
    ∀ (l pre acc : List RawUserInteraction),
      (∀ r ∈ acc, pre.find? (hasCase (caseKey r)) = some r) →
      (∀ v ∈ pre, v.interaction.isSome = true → ∃ r ∈ acc, caseKey r = caseKey v) →
      ∀ x ∈ l.foldl dedupeStep acc,
        (pre ++ l).find? (hasCase (caseKey x)) = some x := by
  intro l
  induction l with
  | nil =>
      intro pre acc h1 _ x hx
      rw [List.append_nil]
      exact h1 x hx
  | cons b bs ih =>
      intro pre acc h1 h2 x hx
      rw [List.foldl_cons] at hx
      rw [show pre ++ b :: bs = (pre ++ [b]) ++ bs by simp]
      refine ih (pre ++ [b]) (dedupeStep acc b) ?_ ?_ x hx
      · intro r hr
        unfold dedupeStep at hr
        cases hb : b.interaction with
        | none =>
            rw [hb] at hr
            exact find?_append_some (h1 r hr)
        | some d =>
            rw [hb] at hr
            change r ∈ (if (acc.any fun i => caseKey i == caseKey b) = true
              then acc else acc ++ [b]) at hr
            by_cases hany : (acc.any fun i => caseKey i == caseKey b) = true
            · rw [if_pos hany] at hr
              exact find?_append_some (h1 r hr)
            · rw [if_neg hany] at hr
              rcases List.mem_append.mp hr with hr' | hr'
              · exact find?_append_some (h1 r hr')
              · rw [List.mem_singleton] at hr'
                subst hr'
                have hnone : pre.find? (hasCase (caseKey r)) = none := by
                  cases hf : pre.find? (hasCase (caseKey r)) with
                  | none => rfl
                  | some v =>
                      have hvmem := List.mem_of_find?_eq_some hf
                      have hvp := List.find?_some hf
                      unfold hasCase at hvp
                      rw [Bool.and_eq_true] at hvp
                      rcases hvp with ⟨hvs, hvk⟩
                      have hveq : caseKey v = caseKey r := eq_of_beq hvk
                      rcases h2 v hvmem hvs with ⟨r', hr'', hkey⟩
                      exact absurd (List.any_eq_true.mpr
                        ⟨r', hr'', by rw [hkey, hveq]; exact beq_self_eq_true _⟩) hany
                rw [find?_append_none hnone]
                exact List.find?_cons_of_pos _ (by simp [hasCase, hb])
      · intro v hv hvs
        rcases List.mem_append.mp hv with hv' | hv'
        · rcases h2 v hv' hvs with ⟨r, hr, hkey⟩
          exact ⟨r, subset_dedupeStep acc b hr, hkey⟩
        · rw [List.mem_singleton] at hv'
          subst hv'
          unfold dedupeStep
          cases hb : v.interaction with
          | none => rw [hb] at hvs; cases hvs
          | some d =>
              change ∃ r ∈ (if (acc.any fun i => caseKey i == caseKey v) = true
                then acc else acc ++ [v]), caseKey r = caseKey v
              by_cases hany : (acc.any fun i => caseKey i == caseKey v) = true
              · rw [if_pos hany]
                rcases List.any_eq_true.mp hany with ⟨i, hi, hik⟩
                exact ⟨i, hi, eq_of_beq hik⟩
              · rw [if_neg hany]
                exact ⟨v, List.mem_append_right _ (List.mem_singleton.mpr rfl), rfl⟩

/-- Every survivor of the deduplication is the first input entry
carrying an interaction with its `type.case`. -/
theorem dedupeByCase_first {xs : List RawUserInteraction}
    {x : RawUserInteraction} (hx : x ∈ dedupeByCase xs) :
    xs.find? (hasCase (caseKey x)) = some x := by
  have h := foldl_dedupe_first xs [] []
    (by intro r hr; cases hr) (by intro v hv; cases hv) x hx
  simpa using h

/-- A successfully mapped entry's dedup key is exactly the `type`
string of its mapped value. -/
theorem mapStep_caseKey {q a : String} {r : RawUserInteraction}
    {m : MappedInteraction} (h : mapStep q a r = some m) :
    caseKey r = some m.value.tag := by
  unfold mapStep at h
  cases hi : r.interaction with
  | none =>
      simp only [hi, Option.none_bind] at h
      cases h
  | some d =>
      simp only [hi, Option.some_bind] at h
      cases hv : mapInteractionValue d with
      | none =>
          simp only [hv, Option.map_none'] at h
          cases h
      | some mv =>
          simp only [hv, Option.map_some'] at h
          unfold mapInteractionValue at hv
          cases ht : d.rtype with
          | none =>
              simp only [ht, Option.none_bind] at hv
              cases hv
          | some t =>
              simp only [ht, Option.some_bind] at hv
              cases htv : t.value with
              | none =>
                  simp only [htv, Option.none_bind] at hv
                  cases hv
              | some v =>
                  simp only [htv, Option.some_bind] at hv
                  cases htc : t.tyCase with
                  | none =>
                      simp only [htc, Option.none_bind] at hv
                      cases hv
                  | some c =>
                      simp only [htc, Option.some_bind] at hv
                      have hkey : caseKey r = some c := by
                        unfold caseKey
                        rw [hi]
                        simp [ht, htc]
                      rw [hkey]
                      by_cases h1 : c = "questionAnswer"
                      · rw [if_pos h1] at hv
                        cases hv
                        cases h
                        subst h1
                        rfl
                      · rw [if_neg h1] at hv
                        by_cases h2 : c = "hypothesisEvidence"
                        · rw [if_pos h2] at hv
                          cases hv
                          cases h
                          subst h2
                          rfl
                        · rw [if_neg h2] at hv
                          by_cases h3 : c = "actionOutcome"
                          · rw [if_pos h3] at hv
                            cases hv
                            cases h
                            subst h3
                            rfl
                          · rw [if_neg h3] at hv
                            cases hv

/-- A mapped `questionAnswer` entry carries exactly the call's
question and answer arguments. -/
theorem mapStep_qa_fields {q a : String} {r : RawUserInteraction}
    {m : MappedInteraction} (h : mapStep q a r = some m)
    {u qq aa : String} {bs : List Belief}
    (hm : m.value = InteractionValue.questionAnswer u qq aa bs) :
    qq = q ∧ aa = a := by
  unfold mapStep at h
  cases hi : r.interaction with
  | none =>
      simp only [hi, Option.none_bind] at h
      cases h
  | some d =>
      simp only [hi, Option.some_bind] at h
      cases hv : mapInteractionValue d with
      | none =>
          simp only [hv, Option.map_none'] at h
          cases h
      | some mv =>
          simp only [hv, Option.map_some'] at h
          cases mv with
          | questionAnswer u' q' a' bs' =>
              cases h
              simp only [qaOverride] at hm
              injection hm with h1 h2 h3 h4
              exact ⟨h2.symm, h3.symm⟩
          | hypothesisEvidence u' hy ev cf ub =>
              cases h
              simp only [qaOverride] at hm
              cases hm
          | actionOutcome u' ac oc ub =>
              cases h
              simp only [qaOverride] at hm
              cases hm

/-- Distinct dedup keys yield distinct mapped tags. -/
theorem filterMap_tags_nodup (q a : String) :
    ∀ (l : List RawUserInteraction), (l.map caseKey).Nodup →
      ((l.filterMap (mapStep q a)).map (fun m => m.value.tag)).Nodup := by
  intro l
  induction l with
  | nil => intro _; simp
  | cons r l' ih =>
      intro h
      rw [List.map_cons] at h
      rcases List.nodup_cons.mp h with ⟨hnotin, hnd⟩
      cases hm : mapStep q a r with
      | none =>
          rw [List.filterMap_cons_none hm]
          exact ih hnd
      | some m =>
          rw [List.filterMap_cons_some hm, List.map_cons]
          refine List.nodup_cons.mpr ⟨?_, ih hnd⟩
          intro htag
          rcases List.mem_map.mp htag with ⟨m', hm', htag'⟩
          rcases List.mem_filterMap.mp hm' with ⟨r', hr', hmr'⟩
          have h1 := mapStep_caseKey hm
          have h2 := mapStep_caseKey hmr'
          apply hnotin
          have hkeys : caseKey r' = caseKey r := by
            rw [h1, h2, htag']
          rw [← hkeys]
          exact List.mem_map_of_mem caseKey hr'

/-- C9: the `userInteractions` list returned by
`updateDialecticWithMessage` holds at most one entry per
interaction-type case (nulls having been filtered out), each kept
entry is the first input entry of its case, and every `questionAnswer`
entry carries exactly the question and answer passed to the call. -/
theorem updateDialectic_interactions_ok (q a : String)
    (xs : List RawUserInteraction) :
    ((updateDialecticWithMessage q a xs).map (fun m => m.value.tag)).Nodup
    ∧ (∀ m ∈ updateDialecticWithMessage q a xs,
        ∀ u qq aa bs, m.value = InteractionValue.questionAnswer u qq aa bs →
          qq = q ∧ aa = a)
    ∧ (∀ m ∈ updateDialecticWithMessage q a xs,
        ∃ r, mapStep q a r = some m
          ∧ xs.find? (hasCase (caseKey r)) = some r) := by
  have hrw : updateDialecticWithMessage q a xs
      = (dedupeByCase xs).filterMap (mapStep q a) := by
    unfold updateDialecticWithMessage
    rw [List.filterMap_map]
    rfl
  refine ⟨?_, ?_, ?_⟩
  · rw [hrw]
    exact filterMap_tags_nodup q a _ (foldl_dedupe_keys_nodup xs [] (by simp))
  · intro m hm u qq aa bs hval
    rw [hrw] at hm
    rcases List.mem_filterMap.mp hm with ⟨r, _, hmr⟩
    exact mapStep_qa_fields hmr hval
  · intro m hm
    rw [hrw] at hm
    rcases List.mem_filterMap.mp hm with ⟨r, hr, hmr⟩
    exact ⟨r, hmr, dedupeByCase_first hr⟩

/-- Witness for C9 at a concrete two-entry server response. -/
theorem updateDialectic_interactions_ok_witness :
    mappedQA1 ∈ updateDialecticWithMessage "Q" "A" [rawQA1, rawQA2]
    ∧ ("Q" = "Q" ∧ "A" = "A") := by
  refine ⟨by decide, ?_⟩
  exact (updateDialectic_interactions_ok "Q" "A" [rawQA1, rawQA2]).2.1 mappedQA1
    (by decide) "5" "Q" "A" [⟨"b1", "belief one"⟩] rfl

/-! ## Supporting lemmas: the `AuthService` singleton -/

theorem authInv_initial : AuthInv initialAuthState := by
  refine ⟨fun _ => ⟨rfl, rfl⟩, ?_, ?_, ?_⟩
  · intro r h
    cases h
  · intro k h
    cases h
  · intro k h
    cases h

theorem strTruthy_some {k : String} (hk : k ≠ "") :
    strTruthy (some k) = true := by
  simp [strTruthy, hk]

theorem strTruthy_some_inv {o : Option String} (h : strTruthy o = true) :
    ∃ k, o = some k ∧ k ≠ "" := by
  cases o with
  | none => simp [strTruthy] at h
  | some k =>
      refine ⟨k, rfl, ?_⟩
      simpa [strTruthy] using h

/-- A successful creation never returns the empty key. -/
theorem create_ok_ne_empty {env : CreateEnv} {k : String}
    (h : createDeveloperAndGetApiKey env = .ok k) : k ≠ "" := by
  cases env with
  | error e => cases h
  | ok resp =>
      replace h : extractApiKey resp = .ok k := h
      unfold extractApiKey at h
      cases hk : resp.developer.bind (fun d => d.apiKeys.bind List.head?) with
      | none => rw [hk] at h; cases h
      | some k' =>
          rw [hk] at h
          change (if (k' == "") = true
            then Except.error "Failed to get API key from developer response"
            else Except.ok k') = Except.ok k at h
          by_cases he : (k' == "") = true
          · rw [if_pos he] at h
            cases h
          · rw [if_neg he] at h
            cases h
            intro hc
            exact he (by rw [hc]; exact beq_self_eq_true _)

/-- Method `initialize` preserves the invariant, and a successful return
caches exactly the returned key. -/
theorem authInit_inv (env : CreateEnv) (s : AuthState) (hinv : AuthInv s) :
    AuthInv (authInit env s).2
    ∧ (∀ k, (authInit env s).1 = .ok k → (authInit env s).2.apiKey = some k) := by
  obtain ⟨h1, h2, h3, h4⟩ := hinv
  unfold authInit
  by_cases ht : strTruthy s.apiKey = true
  · rw [if_pos ht]
    refine ⟨⟨h1, h2, h3, h4⟩, ?_⟩
    intro k hk
    rcases strTruthy_some_inv ht with ⟨k0, ha, _⟩
    rw [ha] at hk
    simp only [Option.getD_some] at hk
    cases hk
    exact ha
  · rw [if_neg ht]
    cases hp : s.initPromise with
    | some r =>
        refine ⟨⟨h1, h2, h3, h4⟩, ?_⟩
        intro k hk
        simp only at hk
        rw [hk] at hp
        exact (h4 k hp).1
    | none =>
        obtain ⟨hA, hC⟩ := h1 hp
        cases hres : createDeveloperAndGetApiKey env with
        | ok k0 =>
            have hk0 := create_ok_ne_empty hres
            refine ⟨⟨?_, ?_, ?_, ?_⟩, ?_⟩
            · intro hcontra
              simp only [hres] at hcontra
              cases hcontra
            · intro r hr
              simp only [hC]
            · intro k' hk'
              simp only [hres] at hk'
              cases hk'
              exact ⟨hk0, by simp [hres]⟩
            · intro k' hk'
              simp only [hres] at hk'
              cases hk'
              exact ⟨by simp [hres], hk0⟩
            · intro k hk
              simp only [hres] at hk
              cases hk
              simp [hres]
        | error e =>
            refine ⟨⟨?_, ?_, ?_, ?_⟩, ?_⟩
            · intro hcontra
              simp only [hres] at hcontra
              cases hcontra
            · intro r hr
              simp only [hC]
            · intro k' hk'
              simp only [hres, hA] at hk'
              cases hk'
            · intro k' hk'
              simp only [hres] at hk'
              cases hk'
            · intro k hk
              simp only [hres] at hk
              cases hk

/-- Method `getApiKey` preserves the invariant, and a successful return
matches the cached key. -/
theorem authGetApiKey_inv (env : CreateEnv) (s : AuthState) (hinv : AuthInv s) :
    AuthInv (authGetApiKey env s).2
    ∧ (∀ k, (authGetApiKey env s).1 = .ok k →
        (authGetApiKey env s).2.apiKey = some k) := by
  have hii := authInit_inv env s hinv
  unfold authGetApiKey
  by_cases ht : strTruthy s.apiKey = true
  · rw [if_pos ht]
    refine ⟨hinv, ?_⟩
    intro k hk
    rcases strTruthy_some_inv ht with ⟨k0, ha, _⟩
    rw [ha] at hk
    simp only [Option.getD_some] at hk
    cases hk
    exact ha
  · rw [if_neg ht]
    cases hr : (authInit env s).1 with
    | error e =>
        refine ⟨hii.1, ?_⟩
        intro k hk
        cases hk
    | ok k0 =>
        by_cases ht2 : strTruthy (authInit env s).2.apiKey = true
        · rw [if_pos ht2]
          refine ⟨hii.1, ?_⟩
          intro k hk
          rcases strTruthy_some_inv ht2 with ⟨k1, ha, _⟩
          rw [ha] at hk
          simp only [Option.getD_some] at hk
          cases hk
          exact ha
        · rw [if_neg ht2]
          refine ⟨hii.1, ?_⟩
          intro k hk
          cases hk

theorem runAuthOp_inv (op : AuthOp) (s : AuthState) (hinv : AuthInv s) :
    AuthInv (runAuthOp s op).2
    ∧ (∀ k, (runAuthOp s op).1 = .ok k → (runAuthOp s op).2.apiKey = some k) := by
  cases op with
  | init env => exact authInit_inv env s hinv
  | getKey env => exact authGetApiKey_inv env s hinv

/-- Once the key is cached, every call returns it and leaves the state
untouched. -/
theorem runAuthOp_stable (op : AuthOp) (s : AuthState) (k : String)
    (hinv : AuthInv s) (hk : s.apiKey = some k) : runAuthOp s op = (.ok k, s) := by
  have hne : k ≠ "" := (hinv.2.2.1 k hk).1
  have ht : strTruthy s.apiKey = true := by rw [hk]; exact strTruthy_some hne
  cases op with
  | init env =>
      show authInit env s = _
      unfold authInit
      rw [if_pos ht, hk]
      simp
  | getKey env =>
      show authGetApiKey env s = _
      unfold authGetApiKey
      rw [if_pos ht, hk]
      simp

theorem authInv_count_le_one {s : AuthState} (hinv : AuthInv s) :
    s.createCount ≤ 1 := by
  obtain ⟨h1, h2, _, _⟩ := hinv
  cases hp : s.initPromise with
  | none => rw [(h1 hp).2]; omega
  | some r => rw [h2 r hp]

theorem runAuthTrace_inv : ∀ (ops : List AuthOp) (s : AuthState),
    AuthInv s → AuthInv (runAuthTrace s ops).2 := by
  intro ops
  induction ops with
  | nil => intro s h; exact h
  | cons op rest ih =>
      intro s h
      exact ih (runAuthOp s op).2 ((runAuthOp_inv op s h).1)

theorem runAuthTrace_stable : ∀ (ops : List AuthOp) (s : AuthState) (k : String),
    AuthInv s → s.apiKey = some k →
    runAuthTrace s ops = (ops.map (fun _ => Except.ok k), s) := by
  intro ops
  induction ops with
  | nil => intro s k _ _; rfl
  | cons op rest ih =>
      intro s k hinv hk
      show ((runAuthOp s op).1 :: (runAuthTrace (runAuthOp s op).2 rest).1,
        (runAuthTrace (runAuthOp s op).2 rest).2) = _
      rw [runAuthOp_stable op s k hinv hk, ih s k hinv hk]
      rfl

theorem runAuthTrace_append_snd : ∀ (l₁ l₂ : List AuthOp) (s : AuthState),
    (runAuthTrace s (l₁ ++ l₂)).2 = (runAuthTrace (runAuthTrace s l₁).2 l₂).2 := by
  intro l₁
  induction l₁ with
  | nil => intro l₂ s; rfl
  | cons op rest ih =>
      intro l₂ s
      rw [List.cons_append]
      show (runAuthTrace (runAuthOp s op).2 (rest ++ l₂)).2 = _
      rw [ih l₂ (runAuthOp s op).2]
      rfl

/-- C10: `AuthService` initialization is idempotent — once one call on
the singleton has returned a key, every subsequent `initialize` or
`getApiKey` call returns that same cached key, and
`createDeveloperAndGetApiKey` runs at most once over the whole call
sequence. -/
theorem authService_create_once_and_stable (pre : List AuthOp) (op : AuthOp)
    (post : List AuthOp) (k : String)
    (h : (runAuthOp (runAuthTrace initialAuthState pre).2 op).1 = .ok k) :
    (∀ r ∈ (runAuthTrace
        (runAuthOp (runAuthTrace initialAuthState pre).2 op).2 post).1,
        r = Except.ok k)
    ∧ (runAuthTrace initialAuthState (pre ++ op :: post)).2.createCount ≤ 1 := by
  have hinv1 : AuthInv (runAuthTrace initialAuthState pre).2 :=
    runAuthTrace_inv pre initialAuthState authInv_initial
  have hop := runAuthOp_inv op (runAuthTrace initialAuthState pre).2 hinv1
  have hkey := hop.2 k h
  have hinv2 := hop.1
  have hstable := runAuthTrace_stable post
    (runAuthOp (runAuthTrace initialAuthState pre).2 op).2 k hinv2 hkey
  constructor
  · intro r hr
    rw [hstable] at hr
    rcases List.mem_map.mp hr with ⟨_, _, hval⟩
    exact hval.symm
  · have happ := runAuthTrace_append_snd pre (op :: post) initialAuthState
    rw [happ]
    show (runAuthTrace (runAuthOp (runAuthTrace initialAuthState pre).2 op).2
      post).2.createCount ≤ 1
    rw [hstable]
    exact authInv_count_le_one hinv2

/-- Witness for C10: a successful first `initialize`, followed by
calls whose own environments would fail — all still return `"K1"`. -/
theorem authService_create_once_and_stable_witness :
    (runAuthOp (runAuthTrace initialAuthState []).2 (.init okEnv)).1
      = .ok "K1"
    ∧ ((∀ r ∈ (runAuthTrace
          (runAuthOp (runAuthTrace initialAuthState []).2 (.init okEnv)).2
          [.getKey badEnv, .init badEnv]).1, r = Except.ok "K1")
       ∧ (runAuthTrace initialAuthState
            ([] ++ .init okEnv :: [.getKey badEnv, .init badEnv])).2.createCount
          ≤ 1) :=
  ⟨by decide,
   authService_create_once_and_stable [] (.init okEnv)
     [.getKey badEnv, .init badEnv] "K1" (by decide)⟩

end Spec2Proof
